import Mathlib

/-!
Verification of the micron fault-tolerant job scheduler.

The Go source is shallowly embedded in Lean:

* a `time.Time` and a `time.Duration` are `Int` nanosecond counts
  (`time.Time` counted from the zero time);
* `Duration.Truncate(time.Second)` rounds toward zero (Go semantics),
  which is `Int.tmod` / `Int.tdiv`;
* `Time.Truncate(time.Second)` rounds down (toward the past) to a whole
  second since the zero time, which is Euclidean `%` (`Int.emod`);
* fallible Go code returns `Except` / explicit outcome types, and a Go
  `panic` is an explicit constructor of the outcome type;
* the concurrent job / stop protocol of src/cron.go is embedded as a
  small-step transition system over explicit interleavings.

Sources embedded: src/cron/scheduler.go (schedule construction and Next),
src/cron.go (registry `Add` / `AddJob`, the job fired-procedure and `Stop`).
-/

namespace Micron

/-- One second in nanoseconds, the value of `time.Second`. -/
def nsPerSec : Int := 1000000000

/-- Embedding of `d.Truncate(time.Second)` on a `time.Duration` `d`:
Go `Duration.Truncate` computes `d - d%m`, with Go's truncated (toward-zero)
remainder, so the result is the toward-zero multiple of one second. -/
def durTruncSec (d : Int) : Int := d - Int.tmod d nsPerSec

/-- Embedding of `t.Truncate(time.Second)` on a `time.Time` `t`:
Go `Time.Truncate` rounds `t` down (toward the past) to a multiple of one
second since the zero time, which is the Euclidean remainder on `Int`. -/
def timeTruncSec (t : Int) : Int := t - t % nsPerSec

/-- The `everyScheduler` struct of src/cron/scheduler.go: a fixed-interval
schedule holding its step in nanoseconds. -/
structure everyScheduler where
  duration : Int
deriving DecidableEq

/-- The `Every` constructor of src/cron/scheduler.go: truncate `d` down to a
multiple of one second (toward zero, Go `Duration.Truncate`); if the result is
zero, use one second. -/
def Every (d : Int) : everyScheduler :=
  let d1 := durTruncSec d
  if d1 = 0 then ⟨nsPerSec⟩ else ⟨d1⟩

/-- The `everyScheduler.Next` method of src/cron/scheduler.go: the previous
instant plus the step, truncated down to a whole second. -/
def everyScheduler.Next (s : everyScheduler) (prev : Int) : Int :=
  timeTruncSec (prev + s.duration)

/-- Repeated application of `everyScheduler.Next`, for the spec's property
about the sequence of activation instants. -/
def iterNext (sc : everyScheduler) : Nat → Int → Int
  | 0, t => t
  | k + 1, t => iterNext sc k (sc.Next t)

/-- Claim-side variant of `Every`, written from the spec's words for claim C9:
the spec says the duration is "floored down" to a whole number of seconds
(mathematical floor, `Int.fdiv`), with one second substituted when the floored
value is zero.  To be diffed against the source's `Every`. -/
def EverySpecFloor (d : Int) : everyScheduler :=
  let f := Int.fdiv d nsPerSec * nsPerSec
  if f = 0 then ⟨nsPerSec⟩ else ⟨f⟩

/-- Modelled from the spec: the cron-expression schedule variant "computes the
earliest matching instant strictly after a given instant"; the parsed field
set is abstracted into a match predicate on instants and the search is bounded
by fuel (none when no matching instant exists in range).  The concrete cron
field semantics live in the external gorhill/cronexpr library, which is not
part of src/. -/
def cronNextSpec (matchesFields : Int → Bool) : Nat → Int → Option Int
  | 0, _ => none
  | fuel + 1, prev =>
    if matchesFields (prev + 1) then some (prev + 1)
    else cronNextSpec matchesFields fuel (prev + 1)

theorem nsPerSec_pos : (0 : Int) < nsPerSec := by decide

/-- Adding a whole number of seconds commutes with second-truncation. -/
theorem timeTruncSec_add_mul (x y : Int) :
    timeTruncSec (x + y * nsPerSec) = timeTruncSec x + y * nsPerSec := by
  unfold timeTruncSec
  rw [Int.add_mul_emod_self]
  ring

/-- Second-truncation is idempotent. -/
theorem timeTruncSec_idem (x : Int) :
    timeTruncSec (timeTruncSec x) = timeTruncSec x := by
  unfold timeTruncSec
  rw [Int.sub_emod, Int.emod_emod_of_dvd x (dvd_refl nsPerSec)]
  simp

/-- Truncating after adding at least one second lands strictly after the
starting instant. -/
theorem lt_timeTruncSec_add {step : Int} (t : Int) (h : nsPerSec ≤ step) :
    t < timeTruncSec (t + step) := by
  unfold timeTruncSec
  have h1 : (t + step) % nsPerSec < nsPerSec :=
    Int.emod_lt_of_pos _ nsPerSec_pos
  omega

/-- The step produced by `Every` is at least one second whenever the requested
duration is greater than minus one second (in particular for any nonnegative
duration). -/
theorem nsPerSec_le_Every_duration {d : Int} (h : -nsPerSec < d) :
    nsPerSec ≤ (Every d).duration := by
  have hq : 0 ≤ d.tdiv nsPerSec := by
    rcases le_or_lt 0 d with hd | hd
    · exact Int.tdiv_nonneg hd (le_of_lt nsPerSec_pos)
    · have h0 : (-d).tdiv nsPerSec = 0 := by
        apply Int.tdiv_eq_zero_of_lt (by omega)
        have : -nsPerSec < d := h
        omega
      have hneg := Int.neg_tdiv (-d) nsPerSec
      rw [neg_neg] at hneg
      rw [hneg, h0, neg_zero]
  have hd1 : durTruncSec d = nsPerSec * d.tdiv nsPerSec := by
    unfold durTruncSec
    rw [Int.tmod_def]
    ring
  unfold Every
  simp only [hd1]
  split
  · exact le_refl nsPerSec
  · rename_i hne
    have hq1 : 1 ≤ d.tdiv nsPerSec := by
      rcases eq_or_lt_of_le hq with h0 | h0
      · exfalso; apply hne; rw [← h0]; ring
      · omega
    calc nsPerSec = nsPerSec * 1 := by ring
      _ ≤ nsPerSec * d.tdiv nsPerSec :=
          mul_le_mul_of_nonneg_left hq1 (le_of_lt nsPerSec_pos)

/-- The spec-modelled cron Next, when it returns an instant, returns one
strictly after its input. -/
theorem cronNextSpec_gt (m : Int → Bool) (fuel : Nat) :
    ∀ prev n : Int, cronNextSpec m fuel prev = some n → prev < n := by
  induction fuel with
  | zero => intro prev n h; simp [cronNextSpec] at h
  | succ k ih =>
    intro prev n h
    unfold cronNextSpec at h
    split at h
    · cases h; omega
    · have := ih (prev + 1) n h; omega

/-- Claim C3 counterexample: the claim quantifies over schedules built by
`Every` with any duration, but `Every` of minus two seconds keeps the negative
step (toward-zero truncation of -2s is -2s, which is nonzero), and the
resulting `Next(0)` is -2s, which is not strictly greater than 0. -/
theorem every_next_not_after_on_negative :
    (Every (-2000000000)).Next 0 = -2000000000 ∧
      ¬ (0 : Int) < (Every (-2000000000)).Next 0 := by decide

/-- Claim C3 (amended): for every fixed-interval schedule built by `Every`
with a duration strictly greater than minus one second (in particular any
nonnegative duration), and for the cron-expression variant as modelled from
the spec, Next(t) is strictly greater than t.  For durations of minus one
second or less, the truncated step stays negative and Next(t) < t. -/
theorem next_strictly_after :
    (∀ d t : Int, -nsPerSec < d → t < (Every d).Next t) ∧
    (∀ (m : Int → Bool) (fuel : Nat) (prev n : Int),
      cronNextSpec m fuel prev = some n → prev < n) := by
  constructor
  · intro d t h
    exact lt_timeTruncSec_add t (nsPerSec_le_Every_duration h)
  · exact fun m fuel => cronNextSpec_gt m fuel

/-- Witness for the amended claim C3 at concrete inputs. -/
theorem next_strictly_after_witness :
    ((0 : Int) < (Every 300000000).Next 0) ∧ ((0 : Int) < 1) :=
  ⟨next_strictly_after.1 300000000 0 (by decide),
   next_strictly_after.2 (fun _ => true) 1 0 1 (by decide)⟩

theorem Every_one_sec : Every nsPerSec = ⟨nsPerSec⟩ := by decide

/-- Iterating the one-second schedule from any instant gives the start plus
whole seconds, truncated; auxiliary induction for claim C8. -/
theorem iterNext_one_sec (k : Nat) : ∀ t0 : Int,
    iterNext (Every nsPerSec) (k + 1) t0 =
      timeTruncSec (t0 + ((k : Int) + 1) * nsPerSec) := by
  induction k with
  | zero =>
    intro t0
    show (Every nsPerSec).Next t0 = timeTruncSec (t0 + ((0 : Int) + 1) * nsPerSec)
    rw [Every_one_sec]
    unfold everyScheduler.Next
    norm_num
  | succ m ih =>
    intro t0
    show iterNext (Every nsPerSec) (m + 1) ((Every nsPerSec).Next t0) =
      timeTruncSec (t0 + (((m : Int) + 1) + 1) * nsPerSec)
    rw [ih ((Every nsPerSec).Next t0)]
    rw [Every_one_sec]
    unfold everyScheduler.Next
    have h1 : timeTruncSec (t0 + (⟨nsPerSec⟩ : everyScheduler).duration) =
        timeTruncSec (t0 + 1 * nsPerSec) := by norm_num
    rw [h1, timeTruncSec_add_mul (timeTruncSec (t0 + 1 * nsPerSec)) ((m : Int) + 1),
        timeTruncSec_idem, timeTruncSec_add_mul t0 1]
    have h2 : t0 + (((m : Int) + 1) + 1) * nsPerSec =
        (t0 + 1 * nsPerSec) + ((m : Int) + 1) * nsPerSec := by ring
    rw [h2, timeTruncSec_add_mul (t0 + 1 * nsPerSec) ((m : Int) + 1),
        timeTruncSec_add_mul t0 1]

/-- Claim C8: for every fixed-interval schedule the next instant is the
previous one plus the step, truncated down to a whole second; and for the
one-second schedule, the k-th iterate from t0 is t0 plus k seconds, truncated
to whole seconds, for every k at least 1. -/
theorem fixed_interval_next_formula :
    (∀ (s : everyScheduler) (prev : Int),
      s.Next prev = timeTruncSec (prev + s.duration)) ∧
    (∀ (t0 : Int) (k : Nat), 1 ≤ k →
      iterNext (Every nsPerSec) k t0 = timeTruncSec (t0 + (k : Int) * nsPerSec)) := by
  constructor
  · intro s prev; rfl
  · intro t0 k hk
    obtain ⟨m, rfl⟩ : ∃ m, k = m + 1 := ⟨k - 1, by omega⟩
    rw [iterNext_one_sec m t0]
    have : ((m : Int) + 1) = ((m + 1 : Nat) : Int) := by push_cast; ring
    rw [this]

/-- Witness for claim C8 at concrete inputs. -/
theorem fixed_interval_next_formula_witness :
    iterNext (Every nsPerSec) 1 0 = timeTruncSec (0 + ((1 : Nat) : Int) * nsPerSec) :=
  fixed_interval_next_formula.2 0 1 (by decide)

/-- Claim C9 counterexample: at minus half a second the source's `Every`
truncates toward zero (getting 0, hence the one-second substitute), while the
claim's flooring semantics would give minus one second (nonzero, hence kept):
the two disagree. -/
theorem every_not_floor_on_negative :
    Every (-500000000) = ⟨nsPerSec⟩ ∧
      EverySpecFloor (-500000000) = ⟨-nsPerSec⟩ ∧
      Every (-500000000) ≠ EverySpecFloor (-500000000) := by decide

/-- Claim C9 (amended): `Every` truncates the duration toward zero (not
mathematical floor); on nonnegative durations the two coincide, so for every
nonnegative d the source's `Every` equals the claim's floor-based version; in
particular 300ms and 1500ms both yield exactly one second. -/
theorem every_truncates_toward_zero :
    (∀ d : Int, 0 ≤ d → Every d = EverySpecFloor d) ∧
    Every 300000000 = ⟨nsPerSec⟩ ∧ Every 1500000000 = ⟨nsPerSec⟩ := by
  refine ⟨?_, by decide, by decide⟩
  intro d hd
  have h1 : durTruncSec d = Int.fdiv d nsPerSec * nsPerSec := by
    unfold durTruncSec
    rw [Int.tmod_def,
        Int.tdiv_eq_ediv hd (le_of_lt nsPerSec_pos),
        ← Int.fdiv_eq_ediv d (le_of_lt nsPerSec_pos)]
    ring
  unfold Every EverySpecFloor
  simp only [h1]

/-- Witness for the amended claim C9 at a concrete input. -/
theorem every_truncates_toward_zero_witness :
    Every 2500000000 = EverySpecFloor 2500000000 :=
  every_truncates_toward_zero.1 2500000000 (by decide)

/-- Digits-to-number helper for the duration-literal parser. -/
def natOfDigits (ds : List Char) : Nat :=
  ds.foldl (fun a c => a * 10 + (c.toNat - 48)) 0

/-- Unit-suffix table of the duration-literal syntax, in nanoseconds. -/
def unitNanos : List Char → Option Int
  | ['n', 's'] => some 1
  | ['u', 's'] => some 1000
  | ['m', 's'] => some 1000000
  | ['s'] => some nsPerSec
  | ['m'] => some (60 * nsPerSec)
  | ['h'] => some (3600 * nsPerSec)
  | _ => none

/-- Modelled from the spec: one or more groups of "number then unit suffix" of
the standard duration-literal syntax; any leftover or malformed group is an
error (none).  Fuel-bounded recursion over the characters. -/
def parseGroups : Nat → List Char → Option Int
  | 0, _ => none
  | _ + 1, [] => none
  | fuel + 1, cs =>
    let ds := cs.takeWhile Char.isDigit
    let rest := cs.dropWhile Char.isDigit
    if ds.isEmpty then none
    else
      let us := rest.takeWhile (fun c => !c.isDigit)
      let rest2 := rest.dropWhile (fun c => !c.isDigit)
      match unitNanos us with
      | none => none
      | some u =>
        let v : Int := (natOfDigits ds : Int) * u
        match rest2 with
        | [] => some v
        | _ => (parseGroups fuel rest2).map (fun w => v + w)

/-- Modelled from the spec: the standard duration-literal syntax accepted when
parsing the duration of an "@every" expression ("numeric+unit suffix syntax,
e.g. 500ms, 2h", optionally signed, with plain "0" allowed); a malformed
literal yields an error.  The concrete parser is the standard library's
duration parser, which is not part of src/.  Strings are handled as their
character lists so that everything evaluates by kernel reduction. -/
def ParseDurationModel (cs0 : List Char) : Except String Int :=
  let signed :=
    match cs0 with
    | '-' :: r => (true, r)
    | '+' :: r => (false, r)
    | _ => (false, cs0)
  if signed.2 = ['0'] then Except.ok 0
  else
    match parseGroups signed.2.length signed.2 with
    | some v => Except.ok (if signed.1 then -v else v)
    | none => Except.error ("time: invalid duration " ++ String.mk cs0)

/-- A parsed Schedule value (the `Scheduler` interface of src/cron): either a
fixed-interval schedule built by `Every`, or a cron-expression schedule
produced by the external cronexpr parser, whose internals are out of scope and
abstracted to an identifier. -/
inductive SchedV where
  | every (s : everyScheduler)
  | cronExpr (id : Nat)
deriving DecidableEq

/-- Whitespace trimming on both sides of a character list (the
strings.TrimSpace step of `Parse`). -/
def trimChars (cs : List Char) : List Char :=
  ((cs.dropWhile Char.isWhitespace).reverse.dropWhile Char.isWhitespace).reverse

/-- The `Parse` function of src/cron/scheduler.go: an expression starting with
"@every" has the remainder after that prefix-trim whitespace-trimmed and
parsed as a duration literal (errors propagate); any other expression goes to
the external cronexpr parser, passed here as the collaborator function
`cronParse`.  String operations run on the character list. -/
def Parse (cronParse : String → Except String SchedV) (expr : String) :
    Except String SchedV :=
  if ("@every".data).isPrefixOf expr.data then
    match ParseDurationModel (trimChars (expr.data.drop 6)) with
    | Except.error e => Except.error e
    | Except.ok d => Except.ok (SchedV.every (Every d))
  else cronParse expr

/-- Outcome of Go code that either returns a value or panics. -/
inductive PanicOr (α : Type) where
  | panicked (e : String)
  | ok (a : α)
deriving DecidableEq

/-- The `MustParse` function of src/cron/scheduler.go: panic on a parse
error, otherwise return the schedule. -/
def MustParse (cronParse : String → Except String SchedV) (expr : String) :
    PanicOr SchedV :=
  match Parse cronParse expr with
  | Except.error e => PanicOr.panicked e
  | Except.ok s => PanicOr.ok s

/-- A placeholder instantiation for the external cronexpr collaborator, used
only to state closed theorems whose expressions all take the "@every" branch
of `Parse` (so this function is never reached there). -/
def cronStub : String → Except String SchedV :=
  fun _ => Except.error "cronexpr collaborator not modelled"

/-- The stored task of a registry job (src/cron.go `AddJob`): the plain `Task`
function, or the closure wrapping the preferred `Handler`; function values are
abstracted to identifiers. -/
inductive TaskV where
  | plainTask (t : Option Nat)
  | wrappedHandler (h : Nat)
deriving DecidableEq

/-- The data of one stored `*job` that registration determines: its task and
its parsed schedule (src/cron.go `newJob` arguments; locker and options are
shared registry-wide and timer/stopped start zeroed). -/
structure JobEntry where
  task : TaskV
  sched : SchedV
deriving DecidableEq

/-- The exported `Job` struct of src/cron.go: name, expression, old-style
`Task` and new-style `Handler` (functions abstracted to identifiers). -/
structure JobInput where
  Name : String
  Expr : String
  Task : Option Nat
  Handler : Option Nat
deriving DecidableEq

/-- The registry's name-to-job map (`Cron.jobs`), as an association list with
Go-map semantics: lookup of the unique binding, insert overwrites. -/
abbrev Reg := List (String × JobEntry)

/-- Go map lookup `c.jobs[name]`. -/
def lookupReg (r : Reg) (n : String) : Option JobEntry :=
  match r with
  | [] => none
  | (k, v) :: rest => if k = n then some v else lookupReg rest n

/-- Go map assignment `c.jobs[name] = job`: overwrite the binding if present,
otherwise add it. -/
def insertReg (r : Reg) (n : String) (e : JobEntry) : Reg :=
  match r with
  | [] => [(n, e)]
  | (k, v) :: rest => if k = n then (k, e) :: rest else (k, v) :: insertReg rest n e

/-- Task selection in src/cron.go `AddJob`: prefer `Handler` (wrapped in the
error-forwarding closure) over `Task`. -/
def mkTask (j : JobInput) : TaskV :=
  match j.Handler with
  | some h => TaskV.wrappedHandler h
  | none => TaskV.plainTask j.Task

/-- The first validation loop of src/cron.go `AddJob`: walk the batch and
return the first job name already present in the registry, if any. -/
def firstExisting (r : Reg) : List JobInput → Option String
  | [] => none
  | j :: rest =>
    if (lookupReg r j.Name).isSome then some j.Name else firstExisting r rest

/-- Outcome of `Cron.AddJob`: the wrapped already-exists error naming the
offending job, a panic escaping from `MustParse`, or success; each carries
the registry contents at that point. -/
inductive AddJobOut where
  | errAlready (name : String) (jobs : Reg)
  | panicked (e : String) (jobs : Reg)
  | okOut (jobs : Reg)
deriving DecidableEq

/-- The second loop of src/cron.go `AddJob`: insert each job in order, parsing
its expression with `MustParse` (whose panic aborts the loop, leaving the
insertions made so far in place). -/
def insertJobs (cronParse : String → Except String SchedV) (r : Reg) :
    List JobInput → AddJobOut
  | [] => AddJobOut.okOut r
  | j :: rest =>
    match MustParse cronParse j.Expr with
    | PanicOr.panicked e => AddJobOut.panicked e r
    | PanicOr.ok s => insertJobs cronParse (insertReg r j.Name ⟨mkTask j, s⟩) rest

/-- The `Cron.AddJob` method of src/cron.go: first loop checks every batch
name against the existing registry (returning the wrapped ErrAlreadyExists on
the first hit, before any mutation); second loop inserts all batch jobs. -/
def AddJob (cronParse : String → Except String SchedV) (r : Reg)
    (batch : List JobInput) : AddJobOut :=
  match firstExisting r batch with
  | some n => AddJobOut.errAlready n r
  | none => insertJobs cronParse r batch

/-- Outcome of `Cron.Add`: ErrAlreadyExists, a panic escaping from
`MustParse`, or success; each carries the registry contents at that point. -/
inductive AddOut where
  | errExists (jobs : Reg)
  | panicked (e : String) (jobs : Reg)
  | okOut (jobs : Reg)
deriving DecidableEq

/-- The `Cron.Add` method of src/cron.go: return ErrAlreadyExists if the name
is taken, otherwise store a new job whose schedule comes from `MustParse`
(which panics on a malformed expression). -/
def Add (cronParse : String → Except String SchedV) (r : Reg)
    (name expr : String) (task : Option Nat) : AddOut :=
  if (lookupReg r name).isSome then AddOut.errExists r
  else
    match MustParse cronParse expr with
    | PanicOr.panicked e => AddOut.panicked e r
    | PanicOr.ok s => AddOut.okOut (insertReg r name ⟨TaskV.plainTask task, s⟩)

/-- Two batch jobs sharing the name "a", with distinguishable tasks. -/
def jobA1 : JobInput := ⟨"a", "@every 1s", some 1, none⟩

/-- Second batch job named "a"; its task id 2 distinguishes it from jobA1. -/
def jobA2 : JobInput := ⟨"a", "@every 1s", some 2, none⟩

/-- A one-entry registry already holding the name "a". -/
def regA : Reg := [("a", ⟨TaskV.plainTask (some 7), SchedV.every ⟨nsPerSec⟩⟩)]

/-- Insert after overwriting finds the new entry. -/
theorem lookupReg_insertReg_self (r : Reg) (n : String) (e : JobEntry) :
    lookupReg (insertReg r n e) n = some e := by
  induction r with
  | nil => simp [insertReg, lookupReg]
  | cons p rest ih =>
    obtain ⟨k, v⟩ := p
    by_cases hk : k = n
    · simp [insertReg, lookupReg, hk]
    · simp [insertReg, lookupReg, hk, ih]

/-- A name reported by the validation loop is a batch name present in the
registry. -/
theorem firstExisting_mem (r : Reg) :
    ∀ batch n, firstExisting r batch = some n →
      ∃ j ∈ batch, j.Name = n ∧ (lookupReg r n).isSome := by
  intro batch
  induction batch with
  | nil => intro n h; simp [firstExisting] at h
  | cons j rest ih =>
    intro n h
    unfold firstExisting at h
    split at h
    · rename_i hs
      cases h
      exact ⟨j, by simp, rfl, hs⟩
    · obtain ⟨j', hj', hname, hsome⟩ := ih n h
      exact ⟨j', by simp [hj'], hname, hsome⟩

/-- Claim C1 counterexample: a batch whose two jobs share the fresh name "a"
is accepted by `AddJob` with no error, and the second job silently overwrites
the first in the registry — refuting that any within-batch name collision
yields an error and leaves the registry unchanged. -/
theorem addJob_batch_duplicate_not_detected :
    AddJob cronStub [] [jobA1, jobA2] =
      AddJobOut.okOut [("a", ⟨TaskV.plainTask (some 2), SchedV.every ⟨nsPerSec⟩⟩)] := by
  decide

/-- Claim C1 (amended): `AddJob` validates batch names only against the
existing registry: on the first such collision it returns an error naming the
offending job and the registry is completely unchanged (all-or-nothing holds
for registry collisions); duplicates within the batch are not detected — both
entries are inserted in order and the last one wins. -/
theorem addJob_registry_collision_all_or_nothing :
    (∀ (cp : String → Except String SchedV) (r : Reg) (batch : List JobInput)
        (n : String),
      firstExisting r batch = some n →
        AddJob cp r batch = AddJobOut.errAlready n r ∧
        ∃ j ∈ batch, j.Name = n ∧ (lookupReg r n).isSome) ∧
    (∀ (cp : String → Except String SchedV) (r : Reg) (j1 j2 : JobInput)
        (s1 s2 : SchedV),
      j1.Name = j2.Name → lookupReg r j1.Name = none →
      MustParse cp j1.Expr = PanicOr.ok s1 →
      MustParse cp j2.Expr = PanicOr.ok s2 →
        AddJob cp r [j1, j2] =
          AddJobOut.okOut
            (insertReg (insertReg r j1.Name ⟨mkTask j1, s1⟩) j2.Name ⟨mkTask j2, s2⟩) ∧
        lookupReg
            (insertReg (insertReg r j1.Name ⟨mkTask j1, s1⟩) j2.Name ⟨mkTask j2, s2⟩)
            j2.Name = some ⟨mkTask j2, s2⟩) := by
  constructor
  · intro cp r batch n h
    exact ⟨by simp [AddJob, h], firstExisting_mem r batch n h⟩
  · intro cp r j1 j2 s1 s2 hn hl hp1 hp2
    have hl2 : lookupReg r j2.Name = none := by rw [← hn]; exact hl
    constructor
    · simp [AddJob, firstExisting, hl, hl2, insertJobs, hp1, hp2]
    · exact lookupReg_insertReg_self _ _ _

/-- Witness for the amended claim C1 at concrete inputs. -/
theorem addJob_registry_collision_witness :
    AddJob cronStub regA [jobA1] = AddJobOut.errAlready "a" regA ∧
    AddJob cronStub [] [jobA1, jobA2] =
      AddJobOut.okOut
        (insertReg (insertReg [] jobA1.Name ⟨mkTask jobA1, SchedV.every ⟨nsPerSec⟩⟩)
          jobA2.Name ⟨mkTask jobA2, SchedV.every ⟨nsPerSec⟩⟩) :=
  ⟨(addJob_registry_collision_all_or_nothing.1 cronStub regA [jobA1] "a" (by decide)).1,
   (addJob_registry_collision_all_or_nothing.2 cronStub [] jobA1 jobA2
      (SchedV.every ⟨nsPerSec⟩) (SchedV.every ⟨nsPerSec⟩)
      rfl (by decide) (by decide) (by decide)).1⟩

/-- Claim C2 counterexample: registering a job whose "@every" duration literal
is malformed makes `Cron.Add` panic (via `MustParse`), rather than return the
parse error to the caller — refuting that a malformed expression surfaces as a
checked error and never causes an abrupt termination. -/
theorem add_malformed_expr_panics :
    Add cronStub [] "job1" "@every xyz" (some 0) =
      AddOut.panicked "time: invalid duration xyz" [] := by decide

/-- Claim C2 (amended): a malformed schedule expression is detected
synchronously during registration and no half-initialized job is stored, but
the parse error surfaces as a panic escaping `MustParse` inside `Cron.Add`
(an abrupt termination), not as a checked error returned to the caller. -/
theorem add_parse_error_is_synchronous_panic :
    ∀ (cp : String → Except String SchedV) (r : Reg) (name expr : String)
      (task : Option Nat) (e : String),
      lookupReg r name = none → Parse cp expr = Except.error e →
      Add cp r name expr task = AddOut.panicked e r := by
  intro cp r name expr task e hl hp
  simp [Add, hl, MustParse, hp]

/-- Witness for the amended claim C2 at concrete inputs. -/
theorem add_parse_error_witness :
    Add cronStub [] "job1" "@every xyz" (some 0) =
      AddOut.panicked "time: invalid duration xyz" [] :=
  add_parse_error_is_synchronous_panic cronStub [] "job1" "@every xyz" (some 0)
    "time: invalid duration xyz" rfl rfl

/-- An error-handler function value: the no-op default or a user callback
(function values abstracted to identifiers). -/
inductive HandlerV where
  | noop
  | user (id : Nat)
deriving DecidableEq

/-- The `Options` struct of src/cron.go; an unset (nil) `ErrHandler` function
field is `none`. -/
structure OptionsV where
  Timezone : String
  LockTTL : Int
  ErrHandler : Option HandlerV
deriving DecidableEq

/-- The `Options.errHandler` accessor of src/cron.go: the no-op default is
returned only when the whole `*Options` pointer is nil; a supplied Options
value returns its `ErrHandler` field as-is, which may be nil. -/
def errHandler : Option OptionsV → Option HandlerV
  | none => some HandlerV.noop
  | some o => o.ErrHandler

/-- The `Options.lockTTL` accessor of src/cron.go: one second when the whole
`*Options` pointer is nil, otherwise the `LockTTL` field as-is. -/
def lockTTL : Option OptionsV → Int
  | none => nsPerSec
  | some o => o.LockTTL

/-- Observable events of one run of the fired-procedure (the closure passed
to `time.AfterFunc` in src/cron.go `job.Schedule`). -/
inductive Ev where
  | check
  | rearm
  | lockAttempt (ttl : Int)
  | errCall (h : HandlerV) (e : String)
  | taskRun
  | fault
deriving DecidableEq

/-- The fired-procedure of src/cron.go `job.Schedule` as the ordered list of
events of one run, given the stopped flag, the job's options and the locker
call's result: check the stopped flag first (if set, return at once); re-arm;
attempt the lock; on a lock error invoke the error handler — a fault if that
handler is a nil function, which aborts the run; run the task only if the
lock was obtained. -/
def firedProcedure (stopped : Bool) (o : Option OptionsV) (lockOk : Bool)
    (lockErr : Option String) : List Ev :=
  if stopped then [Ev.check]
  else
    [Ev.check, Ev.rearm, Ev.lockAttempt (lockTTL o)] ++
      (match lockErr with
       | some e =>
         match errHandler o with
         | some h => [Ev.errCall h e] ++ (if lockOk then [Ev.taskRun] else [])
         | none => [Ev.fault]
       | none => if lockOk then [Ev.taskRun] else [])

/-- Claim C7: in every run of the fired-procedure the stopped flag is checked
first and, when set, nothing else happens; otherwise the re-arm comes next,
then the lock attempt, and any task execution comes strictly after those —
so a slow or failing lock or task cannot delay or drop the next activation,
whose timer is already armed. -/
theorem fired_procedure_order :
    ∀ (o : Option OptionsV) (lockOk : Bool) (lockErr : Option String),
      firedProcedure true o lockOk lockErr = [Ev.check] ∧
      (firedProcedure false o lockOk lockErr).take 3 =
        [Ev.check, Ev.rearm, Ev.lockAttempt (lockTTL o)] ∧
      (∀ i : Nat, (firedProcedure false o lockOk lockErr)[i]? = some Ev.taskRun →
        3 ≤ i) := by
  intro o lockOk lockErr
  refine ⟨by simp [firedProcedure], ?_, ?_⟩
  · cases lockErr <;> cases lockOk <;> cases h : errHandler o <;>
      simp [firedProcedure, h]
  · intro i hi
    by_contra hlt
    push_neg at hlt
    cases lockErr <;> cases lockOk <;> cases h : errHandler o <;>
      interval_cases i <;> simp [firedProcedure, h] at hi

/-- Claim C4 counterexample: with an Options value supplied but its error
handler field left unset, a locker backend error makes the fired-procedure
call a nil function: a fault that aborts the run, not a forwarded callback —
refuting that in every configuration the error is forwarded to a no-op
default handler. -/
theorem lock_error_nil_handler_faults :
    firedProcedure false (some ⟨"", 0, none⟩) false (some "lock backend down") =
      [Ev.check, Ev.rearm, Ev.lockAttempt 0, Ev.fault] := by decide

/-- Claim C4 (amended): the no-op default error handler applies only when the
whole Options value is absent (nil); a supplied Options value with the
errorHandler field unset yields a nil handler, and a locker error then faults
the run instead of being forwarded.  Whenever a handler is present (no
Options supplied, or the field set), a locker backend error is non-fatal: it
is forwarded to that handler, the activation is skipped with no task run, and
the re-arm has already happened before the lock attempt, so rescheduling is
unaffected. -/
theorem lock_error_forwarded_when_handler_present :
    (∀ (o : Option OptionsV) (h : HandlerV) (e : String),
      errHandler o = some h →
        firedProcedure false o false (some e) =
          [Ev.check, Ev.rearm, Ev.lockAttempt (lockTTL o), Ev.errCall h e]) ∧
    errHandler none = some HandlerV.noop ∧
    errHandler (some ⟨"", 0, none⟩) = none := by
  refine ⟨?_, rfl, rfl⟩
  intro o h e hh
  simp [firedProcedure, hh]

/-- Witness for the amended claim C4 at concrete inputs. -/
theorem lock_error_forwarded_witness :
    firedProcedure false none false (some "x") =
      [Ev.check, Ev.rearm, Ev.lockAttempt (lockTTL none), Ev.errCall HandlerV.noop "x"] :=
  lock_error_forwarded_when_handler_present.1 none HandlerV.noop "x" rfl

/-!
Small-step model of one job's timer chain and its `Stop()` call
(src/cron.go `job.Schedule` / `job.Stop`), with cycles numbered from 0.
Cycle k is the k-th armed timer together with the fired-procedure run that
its firing starts; cycle k+1 is armed by cycle k's re-arm.  Every atomic
action of the Go code is one label, and traces are arbitrary interleavings
of the cycle procedures with the stopping goroutine.
-/

/-- Lifecycle state of one cycle: timer armed; timer cancelled by `Stop`;
timer fired (procedure about to check the flag); check passed; next timer
created and armed (`time.AfterFunc` inside the recursive `Schedule` call);
new timer handle published (`StorePointer`); locker call returned; halted at
the check because the stopped flag was set; procedure finished. -/
inductive CycSt where
  | armed
  | cancelled
  | fired
  | checked
  | armedNext
  | stored
  | locked (ok : Bool)
  | halted
  | done
deriving DecidableEq

/-- Progress of the single `Stop()` call: not yet called; timer handle loaded
(`atomic.LoadPointer`); returned after `t.Stop()` succeeded (timer cancelled);
returned after `t.Stop()` failed and the stopped flag was set; faulted on a
nil timer handle. -/
inductive StopSt where
  | notCalled
  | loaded (k : Nat)
  | retTrue
  | retFalse
  | faulted
deriving DecidableEq

/-- Whether `Stop()` has returned. -/
def StopSt.returned : StopSt → Bool
  | StopSt.retTrue => true
  | StopSt.retFalse => true
  | _ => false

/-- A cycle that has passed its stopped-check but whose task has not yet run
(it may still execute its task). -/
def pendingB : CycSt → Bool
  | CycSt.checked => true
  | CycSt.armedNext => true
  | CycSt.stored => true
  | CycSt.locked true => true
  | _ => false

/-- Number of cycles past their check whose task has not yet run. -/
def pendingCount (cs : List CycSt) : Nat := cs.countP pendingB

/-- A cycle state from which the cycle has already passed its check and
re-armed the next cycle (hence is never the newest cycle). -/
def postCheckB : CycSt → Bool
  | CycSt.armedNext => true
  | CycSt.stored => true
  | CycSt.locked _ => true
  | CycSt.done => true
  | _ => false

/-- Global state of one job's chain: the per-cycle states, the published
timer handle (`j.timer`, none before the first `StorePointer`), the stopped
flag, the `Stop()` call's progress, and observation counters: total task
executions, task executions and check-passes after `Stop()` returned, and the
pending-cycle count snapshotted when `Stop()` returned with a failed
cancellation. -/
structure Sys where
  cycles : List CycSt
  published : Option Nat
  stopped : Bool
  stopSt : StopSt
  taskCount : Nat
  tasksAfterStop : Nat
  checksAfterStop : Nat
  pendingAtStop : Nat
deriving DecidableEq

/-- Atomic actions: timer k fires; cycle k's procedure performs its stopped
check; creates and arms timer k+1; publishes the new handle; its locker call
returns; runs its task (lock obtained) or skips it (lock not obtained);
`Stop()` loads the timer handle; `Stop()` finishes (cancel or set the flag). -/
inductive Lab where
  | fire (k : Nat)
  | check (k : Nat)
  | armNext (k : Nat)
  | storePtr (k : Nat)
  | lockRet (k : Nat) (ok : Bool)
  | taskRun (k : Nat)
  | skipTask (k : Nat)
  | stopCall
  | stopFinish
deriving DecidableEq

/-- One atomic step of the protocol of src/cron.go: `none` when the label is
not enabled.  The stopped check halts when the flag is already set; `Stop()`
faults on a nil handle, cancels a still-armed timer, and otherwise sets the
stopped flag (`t.Stop()` returned false). -/
def step (s : Sys) : Lab → Option Sys
  | Lab.fire k =>
    match s.cycles[k]? with
    | some CycSt.armed => some { s with cycles := s.cycles.set k CycSt.fired }
    | _ => none
  | Lab.check k =>
    match s.cycles[k]? with
    | some CycSt.fired =>
      if s.stopped then some { s with cycles := s.cycles.set k CycSt.halted }
      else
        some { s with cycles := s.cycles.set k CycSt.checked,
                      checksAfterStop :=
                        s.checksAfterStop + (if s.stopSt.returned then 1 else 0) }
    | _ => none
  | Lab.armNext k =>
    match s.cycles[k]? with
    | some CycSt.checked =>
      if s.cycles.length = k + 1 then
        some { s with cycles := (s.cycles.set k CycSt.armedNext) ++ [CycSt.armed] }
      else none
    | _ => none
  | Lab.storePtr k =>
    match s.cycles[k]? with
    | some CycSt.armedNext =>
      some { s with cycles := s.cycles.set k CycSt.stored, published := some (k + 1) }
    | _ => none
  | Lab.lockRet k ok =>
    match s.cycles[k]? with
    | some CycSt.stored => some { s with cycles := s.cycles.set k (CycSt.locked ok) }
    | _ => none
  | Lab.taskRun k =>
    match s.cycles[k]? with
    | some (CycSt.locked true) =>
      some { s with cycles := s.cycles.set k CycSt.done,
                    taskCount := s.taskCount + 1,
                    tasksAfterStop :=
                      s.tasksAfterStop + (if s.stopSt.returned then 1 else 0) }
    | _ => none
  | Lab.skipTask k =>
    match s.cycles[k]? with
    | some (CycSt.locked false) => some { s with cycles := s.cycles.set k CycSt.done }
    | _ => none
  | Lab.stopCall =>
    match s.stopSt with
    | StopSt.notCalled =>
      match s.published with
      | none => some { s with stopSt := StopSt.faulted }
      | some k => some { s with stopSt := StopSt.loaded k }
    | _ => none
  | Lab.stopFinish =>
    match s.stopSt with
    | StopSt.loaded k =>
      match s.cycles[k]? with
      | none => none
      | some c =>
        if c = CycSt.armed then
          some { s with cycles := s.cycles.set k CycSt.cancelled,
                        stopSt := StopSt.retTrue }
        else
          some { s with stopped := true, stopSt := StopSt.retFalse,
                        pendingAtStop := pendingCount s.cycles }
    | _ => none

/-- Run a trace of labels from a state; `none` if any label is not enabled. -/
def exec (s : Sys) : List Lab → Option Sys
  | [] => some s
  | l :: ls =>
    match step s l with
    | some s1 => exec s1 ls
    | none => none

/-- State right after `Start` armed the job's first timer and published its
handle. -/
def init0 : Sys :=
  ⟨[CycSt.armed], some 0, false, StopSt.notCalled, 0, 0, 0, 0⟩

/-- State of a job that was constructed (`newJob`) but never scheduled: no
cycle exists and the timer handle is still nil. -/
def initUnarmed : Sys :=
  ⟨[], none, false, StopSt.notCalled, 0, 0, 0, 0⟩

/-- The racing trace for claim C5: cycles 0 and 1 both pass their check and
block in their locker calls; `Stop()` then loads the handle of timer 1, which
has already fired, so cancellation fails and the flag is set; after `Stop()`
returns, both blocked cycles obtain their locks and run their tasks; cycle 2
then fires and halts at the check. -/
def stopRaceTrace : List Lab :=
  [Lab.fire 0, Lab.check 0, Lab.armNext 0, Lab.storePtr 0,
   Lab.fire 1, Lab.check 1, Lab.armNext 1,
   Lab.stopCall, Lab.stopFinish,
   Lab.storePtr 1, Lab.lockRet 0 true, Lab.taskRun 0,
   Lab.lockRet 1 true, Lab.taskRun 1,
   Lab.fire 2, Lab.check 2]

/-- Claim C5 counterexample: a valid interleaving in which `Stop()` returns
with failed cancellation (the loaded timer had already fired) and the task
then executes twice after `Stop()` returned — two cycles were already past
their stopped-check, blocked at the lock, when `Stop()` returned.  This
refutes that the task can never execute twice more after `Stop()` returns. -/
theorem stop_race_two_tasks_after_return :
    exec init0 stopRaceTrace =
      some ⟨[CycSt.done, CycSt.done, CycSt.halted], some 2, true, StopSt.retFalse,
            2, 2, 0, 2⟩ := by decide

theorem getElem?_set_ne {l : List CycSt} {i j : Nat} {a : CycSt} (h : i ≠ j) :
    (l.set i a)[j]? = l[j]? := by
  simp [List.getElem?_set, h]

theorem getElem?_set_self {l : List CycSt} {i : Nat} {a : CycSt} (h : i < l.length) :
    (l.set i a)[i]? = some a := by
  simp [List.getElem?_set, h]

theorem lt_length_of_getElem? {α : Type} {l : List α} {i : Nat} {a : α}
    (h : l[i]? = some a) : i < l.length := by
  by_contra hn
  push_neg at hn
  rw [List.getElem?_eq_none hn] at h
  cases h

/-- Updating one element changes a count by the difference of the predicate at
the old and new values. -/
theorem countP_set (p : CycSt → Bool) (cs : List CycSt) :
    ∀ (k : Nat) (u v : CycSt), cs[k]? = some u →
      (cs.set k v).countP p + (if p u then 1 else 0) =
        cs.countP p + (if p v then 1 else 0) := by
  induction cs with
  | nil => intro k u v h; simp at h
  | cons a l ih =>
    intro k u v h
    cases k with
    | zero =>
      rw [List.getElem?_cons_zero] at h
      obtain rfl := Option.some.inj h
      simp only [List.set_cons_zero, List.countP_cons]
      omega
    | succ m =>
      rw [List.getElem?_cons_succ] at h
      have h2 := ih m u v h
      simp only [List.set_cons_succ, List.countP_cons]
      omega

/-- The protocol invariant of one job's chain, reachable from the started
state: the published handle and any loaded handle index an existing cycle;
`Stop()` never faults once armed; every cycle but the newest is past its
check-and-re-arm; the newest cycle never is; the stopped flag is set exactly
when `Stop()` returned with failed cancellation; after a successful
cancellation the newest cycle is the cancelled one; no check ever passes
after `Stop()` returned; the after-stop counters are zero until `Stop()`
returns; after a failed cancellation, tasks run since then plus cycles still
pending never exceed the pending count at return time; and a task can only
have run once a second cycle exists. -/
structure Inv (s : Sys) : Prop where
  pub_lt : ∀ p, s.published = some p → p < s.cycles.length
  pub_ne : s.published ≠ none
  loaded_lt : ∀ k, s.stopSt = StopSt.loaded k → k < s.cycles.length
  not_faulted : s.stopSt ≠ StopSt.faulted
  chain : ∀ k c, s.cycles[k]? = some c → k + 1 < s.cycles.length → postCheckB c = true
  last_pre : ∀ c, s.cycles[s.cycles.length - 1]? = some c → postCheckB c = false
  stopped_iff : s.stopped = true ↔ s.stopSt = StopSt.retFalse
  retTrue_last : s.stopSt = StopSt.retTrue →
    s.cycles[s.cycles.length - 1]? = some CycSt.cancelled
  checks_zero : s.checksAfterStop = 0
  notret_zero : s.stopSt.returned = false → s.tasksAfterStop = 0 ∧ s.pendingAtStop = 0
  retFalse_bound : s.stopSt = StopSt.retFalse →
    s.tasksAfterStop + pendingCount s.cycles ≤ s.pendingAtStop
  task_len : s.taskCount = 0 ∨ 2 ≤ s.cycles.length

/-- A cycle in a pre-check state is the newest one. -/
theorem nonPost_last {s : Sys} (hs : Inv s) {k : Nat} {c : CycSt}
    (h : s.cycles[k]? = some c) (hc : postCheckB c = false) :
    k + 1 = s.cycles.length := by
  have hk := lt_length_of_getElem? h
  by_contra hne
  have h2 : k + 1 < s.cycles.length := by omega
  have h3 := hs.chain k c h h2
  rw [h3] at hc
  cases hc

/-- A cycle in a post-check state is not the newest one. -/
theorem post_not_last {s : Sys} (hs : Inv s) {k : Nat} {c : CycSt}
    (h : s.cycles[k]? = some c) (hc : postCheckB c = true) :
    k + 1 < s.cycles.length := by
  have hk := lt_length_of_getElem? h
  rcases Nat.lt_or_ge (k + 1) s.cycles.length with h2 | h2
  · exact h2
  · exfalso
    have hkl : k = s.cycles.length - 1 := by omega
    have h3 := hs.last_pre c (by rw [← hkl]; exact h)
    rw [hc] at h3
    cases h3

/-- Setting a cycle to a state on the same side of the check preserves the
chain-shape invariants. -/
theorem chain_set {s : Sys} (hs : Inv s) {k : Nat} {u : CycSt} (v : CycSt)
    (hc : s.cycles[k]? = some u) (hpv : postCheckB v = postCheckB u) :
    (∀ j c, (s.cycles.set k v)[j]? = some c →
        j + 1 < (s.cycles.set k v).length → postCheckB c = true) ∧
    (∀ c, (s.cycles.set k v)[(s.cycles.set k v).length - 1]? = some c →
        postCheckB c = false) := by
  have hk := lt_length_of_getElem? hc
  constructor
  · intro j c hj hlt
    rw [List.length_set] at hlt
    by_cases hjk : k = j
    · subst hjk
      rw [getElem?_set_self hk] at hj
      obtain rfl := Option.some.inj hj
      rw [hpv]
      exact hs.chain k u hc hlt
    · rw [getElem?_set_ne hjk] at hj
      exact hs.chain j c hj hlt
  · intro c hcl
    rw [List.length_set] at hcl
    by_cases hjk : k = s.cycles.length - 1
    · rw [← hjk] at hcl
      rw [getElem?_set_self hk] at hcl
      obtain rfl := Option.some.inj hcl
      rw [hpv]
      apply hs.last_pre u
      rw [← hjk]
      exact hc
    · rw [getElem?_set_ne hjk] at hcl
      exact hs.last_pre c hcl

/-- After a successful cancellation, setting any cycle that is not the
cancelled one preserves the cancelled-newest-cycle invariant. -/
theorem retTrue_last_set {s : Sys} (hs : Inv s) {k : Nat} {u : CycSt} (v : CycSt)
    (hc : s.cycles[k]? = some u) (hu : u ≠ CycSt.cancelled)
    (hrt : s.stopSt = StopSt.retTrue) :
    (s.cycles.set k v)[(s.cycles.set k v).length - 1]? = some CycSt.cancelled := by
  have hlast := hs.retTrue_last hrt
  have hne : k ≠ s.cycles.length - 1 := by
    intro he
    rw [he, hlast] at hc
    exact hu (Option.some.inj hc).symm
  rw [List.length_set, getElem?_set_ne hne]
  exact hlast

theorem inv_fire {s : Sys} {k : Nat} (hs : Inv s)
    (hc : s.cycles[k]? = some CycSt.armed) :
    Inv { s with cycles := s.cycles.set k CycSt.fired } := by
  have hch := chain_set hs CycSt.fired hc (by decide)
  refine ⟨?_, hs.pub_ne, ?_, hs.not_faulted, hch.1, hch.2, hs.stopped_iff, ?_,
    hs.checks_zero, hs.notret_zero, ?_, ?_⟩
  · intro p hp; dsimp only at hp ⊢; rw [List.length_set]; exact hs.pub_lt p hp
  · intro k2 hk2; dsimp only at hk2 ⊢; rw [List.length_set]; exact hs.loaded_lt k2 hk2
  · intro hrt; exact retTrue_last_set hs CycSt.fired hc (by decide) hrt
  · intro hrf
    dsimp only at hrf ⊢
    have hb := hs.retFalse_bound hrf
    have hcp := countP_set pendingB s.cycles k CycSt.armed CycSt.fired hc
    simp [pendingB] at hcp
    unfold pendingCount at hb ⊢
    omega
  · rcases hs.task_len with h0 | h2
    · exact Or.inl h0
    · right; dsimp only; rw [List.length_set]; exact h2

theorem inv_check_halted {s : Sys} {k : Nat} (hs : Inv s)
    (hc : s.cycles[k]? = some CycSt.fired) (hstp : s.stopped = true) :
    Inv { s with cycles := s.cycles.set k CycSt.halted } := by
  have hch := chain_set hs CycSt.halted hc (by decide)
  refine ⟨?_, hs.pub_ne, ?_, hs.not_faulted, hch.1, hch.2, hs.stopped_iff, ?_,
    hs.checks_zero, hs.notret_zero, ?_, ?_⟩
  · intro p hp; dsimp only at hp ⊢; rw [List.length_set]; exact hs.pub_lt p hp
  · intro k2 hk2; dsimp only at hk2 ⊢; rw [List.length_set]; exact hs.loaded_lt k2 hk2
  · intro hrt
    dsimp only at hrt
    exfalso
    have := hs.stopped_iff.mp hstp
    rw [this] at hrt
    cases hrt
  · intro hrf
    dsimp only at hrf ⊢
    have hb := hs.retFalse_bound hrf
    have hcp := countP_set pendingB s.cycles k CycSt.fired CycSt.halted hc
    simp [pendingB] at hcp
    unfold pendingCount at hb ⊢
    omega
  · rcases hs.task_len with h0 | h2
    · exact Or.inl h0
    · right; dsimp only; rw [List.length_set]; exact h2

theorem inv_check_passed {s : Sys} {k : Nat} (hs : Inv s)
    (hc : s.cycles[k]? = some CycSt.fired) (hstp : s.stopped = false) :
    Inv { s with cycles := s.cycles.set k CycSt.checked,
                 checksAfterStop :=
                   s.checksAfterStop + (if s.stopSt.returned then 1 else 0) } := by
  have hch := chain_set hs CycSt.checked hc (by decide)
  have hret : s.stopSt.returned = false := by
    cases hss : s.stopSt with
    | retFalse =>
      exfalso
      have := hs.stopped_iff.mpr hss
      rw [this] at hstp
      cases hstp
    | retTrue =>
      exfalso
      have hlast := hs.retTrue_last hss
      have hkl := nonPost_last hs hc (by decide)
      have : s.cycles.length - 1 = k := by omega
      rw [this, hc] at hlast
      cases hlast
    | notCalled => rfl
    | loaded k2 => rfl
    | faulted => rfl
  refine ⟨?_, hs.pub_ne, ?_, hs.not_faulted, hch.1, hch.2, hs.stopped_iff, ?_, ?_,
    ?_, ?_, ?_⟩
  · intro p hp; dsimp only at hp ⊢; rw [List.length_set]; exact hs.pub_lt p hp
  · intro k2 hk2; dsimp only at hk2 ⊢; rw [List.length_set]; exact hs.loaded_lt k2 hk2
  · intro hrt
    dsimp only at hrt
    exfalso
    rw [hrt] at hret
    cases hret
  · dsimp only
    simp [hret, hs.checks_zero]
  · intro h2; exact hs.notret_zero h2
  · intro hrf
    dsimp only at hrf
    exfalso
    rw [hrf] at hret
    cases hret
  · rcases hs.task_len with h0 | h2
    · exact Or.inl h0
    · right; dsimp only; rw [List.length_set]; exact h2

theorem inv_armNext {s : Sys} {k : Nat} (hs : Inv s)
    (hc : s.cycles[k]? = some CycSt.checked) (hlen : s.cycles.length = k + 1) :
    Inv { s with cycles := (s.cycles.set k CycSt.armedNext) ++ [CycSt.armed] } := by
  have hk := lt_length_of_getElem? hc
  have hlen2 : ((s.cycles.set k CycSt.armedNext) ++ [CycSt.armed]).length = k + 2 := by
    simp [List.length_set, hlen]
  refine ⟨?_, hs.pub_ne, ?_, hs.not_faulted, ?_, ?_, hs.stopped_iff, ?_,
    hs.checks_zero, hs.notret_zero, ?_, ?_⟩
  · intro p hp
    dsimp only at hp ⊢
    rw [hlen2]
    have := hs.pub_lt p hp
    omega
  · intro k2 hk2
    dsimp only at hk2 ⊢
    rw [hlen2]
    have := hs.loaded_lt k2 hk2
    omega
  · intro j c hj hlt
    dsimp only at hj hlt
    rw [hlen2] at hlt
    rw [List.getElem?_append] at hj
    rw [List.length_set] at hj
    by_cases hjlt : j < s.cycles.length
    · rw [if_pos hjlt] at hj
      by_cases hjk : k = j
      · subst hjk
        rw [getElem?_set_self hk] at hj
        obtain rfl := Option.some.inj hj
        rfl
      · rw [getElem?_set_ne hjk] at hj
        exact hs.chain j c hj (by omega)
    · rw [if_neg hjlt] at hj
      exfalso
      have hj2 : j = k + 1 := by omega
      omega
  · intro c hcl
    dsimp only at hcl
    rw [hlen2] at hcl
    have hidx : k + 2 - 1 = k + 1 := by omega
    rw [hidx] at hcl
    rw [List.getElem?_append, List.length_set, hlen] at hcl
    rw [if_neg (by omega)] at hcl
    have hsub : k + 1 - (k + 1) = 0 := by omega
    rw [hsub] at hcl
    rw [List.getElem?_cons_zero] at hcl
    obtain rfl := Option.some.inj hcl
    rfl
  · intro hrt
    dsimp only at hrt
    exfalso
    have hlast := hs.retTrue_last hrt
    have : s.cycles.length - 1 = k := by omega
    rw [this, hc] at hlast
    cases hlast
  · intro hrf
    dsimp only at hrf ⊢
    have hb := hs.retFalse_bound hrf
    have hcp := countP_set pendingB s.cycles k CycSt.checked CycSt.armedNext hc
    simp [pendingB] at hcp
    unfold pendingCount at hb ⊢
    rw [List.countP_append]
    have h4 : List.countP pendingB [CycSt.armed] = 0 := by decide
    rw [h4]
    omega
  · right
    dsimp only
    rw [hlen2]
    omega

theorem inv_storePtr {s : Sys} {k : Nat} (hs : Inv s)
    (hc : s.cycles[k]? = some CycSt.armedNext) :
    Inv { s with cycles := s.cycles.set k CycSt.stored, published := some (k + 1) } := by
  have hch := chain_set hs CycSt.stored hc (by decide)
  have hnl := post_not_last hs hc (by decide)
  refine ⟨?_, ?_, ?_, hs.not_faulted, hch.1, hch.2, hs.stopped_iff, ?_,
    hs.checks_zero, hs.notret_zero, ?_, ?_⟩
  · intro p hp
    dsimp only at hp ⊢
    obtain rfl := Option.some.inj hp
    rw [List.length_set]
    exact hnl
  · dsimp only; intro h2; cases h2
  · intro k2 hk2; dsimp only at hk2 ⊢; rw [List.length_set]; exact hs.loaded_lt k2 hk2
  · intro hrt; exact retTrue_last_set hs CycSt.stored hc (by decide) hrt
  · intro hrf
    dsimp only at hrf ⊢
    have hb := hs.retFalse_bound hrf
    have hcp := countP_set pendingB s.cycles k CycSt.armedNext CycSt.stored hc
    simp [pendingB] at hcp
    unfold pendingCount at hb ⊢
    omega
  · rcases hs.task_len with h0 | h2
    · exact Or.inl h0
    · right; dsimp only; rw [List.length_set]; exact h2

theorem inv_lockRet {s : Sys} {k : Nat} {ok : Bool} (hs : Inv s)
    (hc : s.cycles[k]? = some CycSt.stored) :
    Inv { s with cycles := s.cycles.set k (CycSt.locked ok) } := by
  have hch := chain_set hs (CycSt.locked ok) hc (by cases ok <;> decide)
  refine ⟨?_, hs.pub_ne, ?_, hs.not_faulted, hch.1, hch.2, hs.stopped_iff, ?_,
    hs.checks_zero, hs.notret_zero, ?_, ?_⟩
  · intro p hp; dsimp only at hp ⊢; rw [List.length_set]; exact hs.pub_lt p hp
  · intro k2 hk2; dsimp only at hk2 ⊢; rw [List.length_set]; exact hs.loaded_lt k2 hk2
  · intro hrt; exact retTrue_last_set hs (CycSt.locked ok) hc (by decide) hrt
  · intro hrf
    dsimp only at hrf ⊢
    have hb := hs.retFalse_bound hrf
    have hcp := countP_set pendingB s.cycles k CycSt.stored (CycSt.locked ok) hc
    unfold pendingCount at hb ⊢
    cases ok <;> simp [pendingB] at hcp <;> omega
  · rcases hs.task_len with h0 | h2
    · exact Or.inl h0
    · right; dsimp only; rw [List.length_set]; exact h2

theorem inv_taskRun {s : Sys} {k : Nat} (hs : Inv s)
    (hc : s.cycles[k]? = some (CycSt.locked true)) :
    Inv { s with cycles := s.cycles.set k CycSt.done,
                 taskCount := s.taskCount + 1,
                 tasksAfterStop :=
                   s.tasksAfterStop + (if s.stopSt.returned then 1 else 0) } := by
  have hch := chain_set hs CycSt.done hc (by decide)
  have hnl := post_not_last hs hc (by decide)
  refine ⟨?_, hs.pub_ne, ?_, hs.not_faulted, hch.1, hch.2, hs.stopped_iff, ?_,
    hs.checks_zero, ?_, ?_, ?_⟩
  · intro p hp; dsimp only at hp ⊢; rw [List.length_set]; exact hs.pub_lt p hp
  · intro k2 hk2; dsimp only at hk2 ⊢; rw [List.length_set]; exact hs.loaded_lt k2 hk2
  · intro hrt; exact retTrue_last_set hs CycSt.done hc (by decide) hrt
  · intro h2
    dsimp only at h2 ⊢
    have h3 := hs.notret_zero h2
    exact ⟨by simp [h2, h3.1], h3.2⟩
  · intro hrf
    dsimp only at hrf ⊢
    have hb := hs.retFalse_bound hrf
    have hcp := countP_set pendingB s.cycles k (CycSt.locked true) CycSt.done hc
    simp [pendingB] at hcp
    have hret : s.stopSt.returned = true := by rw [hrf]; rfl
    simp [hret]
    unfold pendingCount at hb ⊢
    omega
  · right
    dsimp only
    rw [List.length_set]
    omega

theorem inv_skipTask {s : Sys} {k : Nat} (hs : Inv s)
    (hc : s.cycles[k]? = some (CycSt.locked false)) :
    Inv { s with cycles := s.cycles.set k CycSt.done } := by
  have hch := chain_set hs CycSt.done hc (by decide)
  refine ⟨?_, hs.pub_ne, ?_, hs.not_faulted, hch.1, hch.2, hs.stopped_iff, ?_,
    hs.checks_zero, hs.notret_zero, ?_, ?_⟩
  · intro p hp; dsimp only at hp ⊢; rw [List.length_set]; exact hs.pub_lt p hp
  · intro k2 hk2; dsimp only at hk2 ⊢; rw [List.length_set]; exact hs.loaded_lt k2 hk2
  · intro hrt; exact retTrue_last_set hs CycSt.done hc (by decide) hrt
  · intro hrf
    dsimp only at hrf ⊢
    have hb := hs.retFalse_bound hrf
    have hcp := countP_set pendingB s.cycles k (CycSt.locked false) CycSt.done hc
    simp [pendingB] at hcp
    unfold pendingCount at hb ⊢
    omega
  · rcases hs.task_len with h0 | h2
    · exact Or.inl h0
    · right; dsimp only; rw [List.length_set]; exact h2

theorem inv_stopCall {s : Sys} {k : Nat} (hs : Inv s)
    (hnc : s.stopSt = StopSt.notCalled) (hp : s.published = some k) :
    Inv { s with stopSt := StopSt.loaded k } := by
  have hstp : s.stopped = false := by
    cases h2 : s.stopped
    · rfl
    · exfalso
      have := hs.stopped_iff.mp h2
      rw [hnc] at this
      cases this
  refine ⟨hs.pub_lt, hs.pub_ne, ?_, ?_, hs.chain, hs.last_pre, ?_, ?_,
    hs.checks_zero, ?_, ?_, hs.task_len⟩
  · intro k2 hk2
    dsimp only at hk2
    obtain rfl := StopSt.loaded.inj hk2
    exact hs.pub_lt k hp
  · dsimp only; intro h2; cases h2
  · dsimp only
    rw [hstp]
    constructor
    · intro h2; cases h2
    · intro h2; cases h2
  · dsimp only; intro h2; cases h2
  · intro h2
    have h3 : s.stopSt.returned = false := by rw [hnc]; rfl
    exact hs.notret_zero h3
  · dsimp only; intro h2; cases h2

theorem inv_stopCancel {s : Sys} {k : Nat} (hs : Inv s)
    (hld : s.stopSt = StopSt.loaded k) (hc : s.cycles[k]? = some CycSt.armed) :
    Inv { s with cycles := s.cycles.set k CycSt.cancelled,
                 stopSt := StopSt.retTrue } := by
  have hch := chain_set hs CycSt.cancelled hc (by decide)
  have hk := lt_length_of_getElem? hc
  have hkl := nonPost_last hs hc (by decide)
  have hstp : s.stopped = false := by
    cases h2 : s.stopped
    · rfl
    · exfalso
      have := hs.stopped_iff.mp h2
      rw [hld] at this
      cases this
  refine ⟨?_, hs.pub_ne, ?_, ?_, hch.1, hch.2, ?_, ?_, hs.checks_zero, ?_, ?_, ?_⟩
  · intro p hp; dsimp only at hp ⊢; rw [List.length_set]; exact hs.pub_lt p hp
  · dsimp only; intro k2 hk2; cases hk2
  · dsimp only; intro h2; cases h2
  · dsimp only
    rw [hstp]
    constructor
    · intro h2; cases h2
    · intro h2; cases h2
  · intro _
    dsimp only
    rw [List.length_set]
    have : s.cycles.length - 1 = k := by omega
    rw [this]
    exact getElem?_set_self hk
  · intro h2
    have h3 : s.stopSt.returned = false := by rw [hld]; rfl
    exact hs.notret_zero h3
  · dsimp only; intro h2; cases h2
  · rcases hs.task_len with h0 | h2
    · exact Or.inl h0
    · right; dsimp only; rw [List.length_set]; exact h2

theorem inv_stopFlag {s : Sys} {k : Nat} {c : CycSt} (hs : Inv s)
    (hld : s.stopSt = StopSt.loaded k) (_hc : s.cycles[k]? = some c) :
    Inv { s with stopped := true, stopSt := StopSt.retFalse,
                 pendingAtStop := pendingCount s.cycles } := by
  have hz := hs.notret_zero (by rw [hld]; rfl)
  refine ⟨hs.pub_lt, hs.pub_ne, ?_, ?_, hs.chain, hs.last_pre, ?_, ?_,
    hs.checks_zero, ?_, ?_, hs.task_len⟩
  · dsimp only; intro k2 hk2; cases hk2
  · dsimp only; intro h2; cases h2
  · dsimp only; exact Iff.intro (fun _ => rfl) (fun _ => rfl)
  · dsimp only; intro h2; cases h2
  · dsimp only; intro h2; cases h2
  · intro _
    dsimp only
    rw [hz.1]
    omega

/-- Every enabled step preserves the invariant. -/
theorem step_inv {s s' : Sys} {l : Lab} (hs : Inv s) (h : step s l = some s') :
    Inv s' := by
  cases l with
  | fire k =>
    simp only [step] at h
    split at h
    · rename_i hc
      obtain rfl := Option.some.inj h
      exact inv_fire hs hc
    · cases h
  | check k =>
    simp only [step] at h
    split at h
    · rename_i hc
      split at h
      · rename_i hstp
        obtain rfl := Option.some.inj h
        exact inv_check_halted hs hc hstp
      · rename_i hstp
        obtain rfl := Option.some.inj h
        exact inv_check_passed hs hc (by simpa using hstp)
    · cases h
  | armNext k =>
    simp only [step] at h
    split at h
    · rename_i hc
      split at h
      · rename_i hlen
        obtain rfl := Option.some.inj h
        exact inv_armNext hs hc hlen
      · cases h
    · cases h
  | storePtr k =>
    simp only [step] at h
    split at h
    · rename_i hc
      obtain rfl := Option.some.inj h
      exact inv_storePtr hs hc
    · cases h
  | lockRet k ok =>
    simp only [step] at h
    split at h
    · rename_i hc
      obtain rfl := Option.some.inj h
      exact inv_lockRet hs hc
    · cases h
  | taskRun k =>
    simp only [step] at h
    split at h
    · rename_i hc
      obtain rfl := Option.some.inj h
      exact inv_taskRun hs hc
    · cases h
  | skipTask k =>
    simp only [step] at h
    split at h
    · rename_i hc
      obtain rfl := Option.some.inj h
      exact inv_skipTask hs hc
    · cases h
  | stopCall =>
    simp only [step] at h
    split at h
    · rename_i hst
      split at h
      · rename_i hp
        exact absurd hp hs.pub_ne
      · rename_i k hp
        obtain rfl := Option.some.inj h
        exact inv_stopCall hs hst hp
    · cases h
  | stopFinish =>
    simp only [step] at h
    split at h
    · rename_i k hst
      split at h
      · cases h
      · rename_i c hc
        split at h
        · rename_i hca
          subst hca
          obtain rfl := Option.some.inj h
          exact inv_stopCancel hs hst hc
        · obtain rfl := Option.some.inj h
          exact inv_stopFlag hs hst hc
    · cases h

/-- The started state satisfies the invariant. -/
theorem inv_init0 : Inv init0 := by
  refine ⟨?_, ?_, ?_, ?_, ?_, ?_, ?_, ?_, ?_, ?_, ?_, ?_⟩
  · intro p hp
    obtain rfl := Option.some.inj hp
    decide
  · intro h; cases h
  · intro k hk; cases hk
  · intro h; cases h
  · intro k c h hlt
    exfalso
    have : init0.cycles.length = 1 := rfl
    omega
  · intro c h
    obtain rfl := Option.some.inj h
    decide
  · constructor
    · intro h; cases h
    · intro h; cases h
  · intro h; cases h
  · rfl
  · intro _; exact ⟨rfl, rfl⟩
  · intro h; cases h
  · exact Or.inl rfl

/-- Executing a concatenated trace is executing the pieces in order. -/
theorem exec_append (t1 t2 : List Lab) :
    ∀ s : Sys, exec s (t1 ++ t2) = (exec s t1).bind (fun m => exec m t2) := by
  induction t1 with
  | nil => intro s; rfl
  | cons l ls ih =>
    intro s
    simp only [List.cons_append, exec]
    cases hstep : step s l
    · rfl
    · exact ih _

/-- The invariant holds in every state reachable from an invariant state. -/
theorem exec_inv : ∀ (tr : List Lab) (s s' : Sys),
    Inv s → exec s tr = some s' → Inv s' := by
  intro tr
  induction tr with
  | nil =>
    intro s s' hs h
    obtain rfl := Option.some.inj h
    exact hs
  | cons l ls ih =>
    intro s s' hs h
    simp only [exec] at h
    cases hstep : step s l with
    | none => rw [hstep] at h; cases h
    | some s1 =>
      rw [hstep] at h
      exact ih s1 s' (step_inv hs hstep) h

/-- Claim C5 (amended): whenever `Stop()` has returned with a failed timer
cancellation, no cycle ever passes its stopped-check afterwards (each
subsequent cycle observes the flag and halts), and the number of task
executions after `Stop()` returned never exceeds the number of cycles that
were already past their stopped-check at that moment; in particular, when at
most one cycle was in flight then (the non-overlapping regime the design
assumes), the task executes at most once more — but with overlapping slow
cycles it can execute twice or more. -/
theorem stop_failed_cancel_bounds :
    ∀ (tr : List Lab) (s : Sys),
      exec init0 tr = some s → s.stopSt = StopSt.retFalse →
        s.checksAfterStop = 0 ∧
        s.tasksAfterStop + pendingCount s.cycles ≤ s.pendingAtStop ∧
        (s.pendingAtStop ≤ 1 → s.tasksAfterStop ≤ 1) := by
  intro tr s h hrf
  have hi := exec_inv tr init0 s inv_init0 h
  refine ⟨hi.checks_zero, hi.retFalse_bound hrf, ?_⟩
  intro h1
  have h2 := hi.retFalse_bound hrf
  omega

/-- The state reached by the short stop-while-racing trace used as the
witness for the amended claim C5. -/
def sRetFalse : Sys :=
  ⟨[CycSt.armedNext, CycSt.armed], some 0, true, StopSt.retFalse, 0, 0, 0, 1⟩

/-- Witness for the amended claim C5 on a concrete racing trace. -/
theorem stop_failed_cancel_bounds_witness :
    sRetFalse.checksAfterStop = 0 ∧
    sRetFalse.tasksAfterStop + pendingCount sRetFalse.cycles ≤ sRetFalse.pendingAtStop ∧
    (sRetFalse.pendingAtStop ≤ 1 → sRetFalse.tasksAfterStop ≤ 1) :=
  stop_failed_cancel_bounds
    [Lab.fire 0, Lab.check 0, Lab.armNext 0, Lab.stopCall, Lab.stopFinish]
    sRetFalse (by decide) rfl

/-- States of one job's chain before its first timer has fired (with `Stop()`
not yet finished), or right after a clean cancellation of that first timer. -/
def preStop (s : Sys) : Prop :=
  (s.cycles = [CycSt.armed] ∧ s.taskCount = 0 ∧ s.published = some 0 ∧
    s.stopped = false ∧
    (s.stopSt = StopSt.notCalled ∨ s.stopSt = StopSt.loaded 0)) ∨
  (s.cycles = [CycSt.cancelled] ∧ s.taskCount = 0 ∧ s.stopSt = StopSt.retTrue)

/-- After a clean cancellation of the only cycle, no step is enabled. -/
theorem cancelled_stuck {s : Sys} (hc : s.cycles = [CycSt.cancelled])
    (hst : s.stopSt = StopSt.retTrue) : ∀ l, step s l = none := by
  intro l
  cases l with
  | fire k => simp only [step]; rw [hc]; cases k <;> rfl
  | check k => simp only [step]; rw [hc]; cases k <;> rfl
  | armNext k => simp only [step]; rw [hc]; cases k <;> rfl
  | storePtr k => simp only [step]; rw [hc]; cases k <;> rfl
  | lockRet k ok => simp only [step]; rw [hc]; cases k <;> rfl
  | taskRun k => simp only [step]; rw [hc]; cases k <;> rfl
  | skipTask k => simp only [step]; rw [hc]; cases k <;> rfl
  | stopCall => simp only [step]; rw [hst]
  | stopFinish => simp only [step]; rw [hst]

/-- From a stuck state, the only successful trace is the empty one. -/
theorem stuck_exec {s : Sys} (hstuck : ∀ l, step s l = none) :
    ∀ (tr : List Lab) (s' : Sys), exec s tr = some s' → s' = s := by
  intro tr
  cases tr with
  | nil => intro s' h; exact (Option.some.inj h).symm
  | cons l ls =>
    intro s' h
    simp only [exec] at h
    rw [hstuck l] at h
    cases h

/-- Any step other than the first timer's firing keeps the chain in its
pre-fire (or cleanly cancelled) configuration. -/
theorem preStop_step {s s' : Sys} {l : Lab} (hp : preStop s) (hl : l ≠ Lab.fire 0)
    (h : step s l = some s') : preStop s' := by
  rcases hp with ⟨hc, ht, hpub, hstp, hst⟩ | ⟨hc, ht, hst⟩
  · cases l with
    | fire k =>
      cases k with
      | zero => exact absurd rfl hl
      | succ m =>
        exfalso
        simp only [step] at h
        rw [hc] at h
        cases h
    | check k =>
      exfalso; simp only [step] at h; rw [hc] at h; cases k <;> cases h
    | armNext k =>
      exfalso; simp only [step] at h; rw [hc] at h; cases k <;> cases h
    | storePtr k =>
      exfalso; simp only [step] at h; rw [hc] at h; cases k <;> cases h
    | lockRet k ok =>
      exfalso; simp only [step] at h; rw [hc] at h; cases k <;> cases h
    | taskRun k =>
      exfalso; simp only [step] at h; rw [hc] at h; cases k <;> cases h
    | skipTask k =>
      exfalso; simp only [step] at h; rw [hc] at h; cases k <;> cases h
    | stopCall =>
      rcases hst with h1 | h1
      · simp only [step, h1, hpub] at h
        obtain rfl := Option.some.inj h
        exact Or.inl ⟨hc, ht, rfl, hstp, Or.inr rfl⟩
      · simp only [step, h1] at h
        cases h
    | stopFinish =>
      rcases hst with h1 | h1
      · simp only [step, h1] at h
        cases h
      · simp only [step, h1, hc, List.getElem?_cons_zero] at h
        rw [if_true] at h
        obtain rfl := Option.some.inj h
        exact Or.inr ⟨rfl, ht, rfl⟩
  · exfalso
    rw [cancelled_stuck hc hst l] at h
    cases h

/-- The pre-fire configuration is preserved along any trace that never fires
the first timer. -/
theorem preStop_exec : ∀ (tr : List Lab) (s s' : Sys), preStop s →
    Lab.fire 0 ∉ tr → exec s tr = some s' → preStop s' := by
  intro tr
  induction tr with
  | nil =>
    intro s s' hp _ h
    obtain rfl := Option.some.inj h
    exact hp
  | cons l ls ih =>
    intro s s' hp hnin h
    simp only [exec] at h
    cases hstep : step s l with
    | none => rw [hstep] at h; cases h
    | some s1 =>
      rw [hstep] at h
      have hl : l ≠ Lab.fire 0 := by
        intro he
        exact hnin (he ▸ List.mem_cons_self l ls)
      exact ih s1 s' (preStop_step hp hl hstep)
        (fun hm => hnin (List.mem_cons_of_mem l hm)) h

/-- Claim C6: if the whole `Stop()` call completes strictly before the job's
first armed timer fires (no fire event precedes the finish of `Stop()`), then
the timer cancellation succeeds (`t.Stop()` returned true), no
fired-procedure for this job ever runs (the only cycle is the cancelled first
one, and the chain is stuck), and the task body executes zero times, ever —
in the final state of any continuation of the trace. -/
theorem stop_before_first_fire_no_task :
    ∀ (t1 t2 : List Lab) (s : Sys),
      Lab.fire 0 ∉ t1 →
      exec init0 (t1 ++ Lab.stopFinish :: t2) = some s →
      s.stopSt = StopSt.retTrue ∧ s.cycles = [CycSt.cancelled] ∧
        s.taskCount = 0 := by
  intro t1 t2 s hnin h
  rw [exec_append] at h
  cases h1 : exec init0 t1 with
  | none => rw [h1] at h; cases h
  | some s1 =>
    rw [h1] at h
    have hp1 := preStop_exec t1 init0 s1
      (Or.inl ⟨rfl, rfl, rfl, rfl, Or.inl rfl⟩) hnin h1
    have h2 : exec s1 (Lab.stopFinish :: t2) = some s := h
    simp only [exec] at h2
    cases hfin : step s1 Lab.stopFinish with
    | none => rw [hfin] at h2; cases h2
    | some s2 =>
      rw [hfin] at h2
      rcases hp1 with ⟨hc, ht, hpub, hstp, hst⟩ | ⟨hc, ht, hst⟩
      · rcases hst with hst1 | hst1
        · exfalso
          simp only [step, hst1] at hfin
          cases hfin
        · simp only [step, hst1, hc, List.getElem?_cons_zero] at hfin
          rw [if_true] at hfin
          obtain rfl := Option.some.inj hfin
          have hstuck : ∀ l,
              step { s1 with cycles := [CycSt.armed].set 0 CycSt.cancelled,
                             stopSt := StopSt.retTrue } l = none :=
            fun l => cancelled_stuck rfl rfl l
          obtain rfl := stuck_exec hstuck t2 s h2
          exact ⟨rfl, rfl, ht⟩
      · exfalso
        rw [cancelled_stuck hc hst Lab.stopFinish] at hfin
        cases hfin

/-- Witness for claim C6 at a concrete pre-fire stop trace. -/
theorem stop_before_first_fire_witness :
    (⟨[CycSt.cancelled], some 0, false, StopSt.retTrue, 0, 0, 0, 0⟩ : Sys).stopSt
        = StopSt.retTrue ∧
    (⟨[CycSt.cancelled], some 0, false, StopSt.retTrue, 0, 0, 0, 0⟩ : Sys).cycles
        = [CycSt.cancelled] ∧
    (⟨[CycSt.cancelled], some 0, false, StopSt.retTrue, 0, 0, 0, 0⟩ : Sys).taskCount
        = 0 :=
  stop_before_first_fire_no_task [Lab.stopCall] []
    ⟨[CycSt.cancelled], some 0, false, StopSt.retTrue, 0, 0, 0, 0⟩
    (by decide) (by decide)

/-- Claim C10: calling `Stop()` on a job that was never scheduled loads the
nil timer handle and faults (the model's faulted outcome of dereferencing the
nil `*time.Timer`), rather than being a harmless no-op; and once the job has
been scheduled at least once, the handle is always published, so `Stop()` can
never fault — `Stop()` is only safe after the job was scheduled. -/
theorem stop_unarmed_faults :
    exec initUnarmed [Lab.stopCall] =
      some { initUnarmed with stopSt := StopSt.faulted } ∧
    (∀ (tr : List Lab) (s : Sys), exec init0 tr = some s →
      s.stopSt ≠ StopSt.faulted) := by
  constructor
  · rfl
  · intro tr s h
    exact (exec_inv tr init0 s inv_init0 h).not_faulted

/-- Witness for the armed part of claim C10. -/
theorem stop_unarmed_faults_witness :
    init0.stopSt ≠ StopSt.faulted :=
  stop_unarmed_faults.2 [] init0 rfl

end Micron
